import Mathlib

/-!
Verification of the document chunking and search core of the pm7 server.

The TypeScript source (`src/services/document-processor.ts`,
`src/services/search-engine.ts`) is shallowly embedded here:

* JS strings are `List Char`; JS string indices/lengths are `Nat`.
* JS number arithmetic on scores is idealised as exact rational arithmetic
  (`ℚ`); the single transcendental host function `Math.log` is abstracted as
  an explicit parameter `lg : ℚ → ℚ` threaded through the scoring code.
* The JS `Map` is an insertion-ordered association list.
* Everything is a computable, total definition so that concrete runs can be
  checked by `decide`.
-/

/-! ### JS string primitives -/

/-- ASCII-range test for the regex class `[a-zA-Z0-9]` used by the tokenizer. -/
def isAlnumChar (c : Char) : Bool :=
  ('a' ≤ c && c ≤ 'z') || ('A' ≤ c && c ≤ 'Z') || ('0' ≤ c && c ≤ '9')

/-- Regex class `[a-z]` (the camelCase splitter's lower half). -/
def isLowerAZ (c : Char) : Bool := 'a' ≤ c && c ≤ 'z'

/-- Regex class `[A-Z]` (the camelCase splitter's upper half). -/
def isUpperAZ (c : Char) : Bool := 'A' ≤ c && c ≤ 'Z'

/-- `String.prototype.toLowerCase`, restricted to the ASCII letters that can
actually occur in the alphanumeric fragments the engine lowercases. -/
def toLowerChar (c : Char) : Char :=
  if isUpperAZ c then Char.ofNat (c.toNat + 32) else c

/-- The JS regex class `\s`, restricted to the whitespace characters relevant
for markdown heading detection (space, tab, CR, vertical tab, form feed,
non-breaking space; a split line never contains `\n`). -/
def isJsSpace (c : Char) : Bool :=
  c = ' ' || c = '\t' || c = '\n' || c = '\x0d' || c = '\x0b' || c = '\x0c' ||
  c = ' '

/-- `content.split('\n')`: JS split on a single-character separator.  Always
returns at least one (possibly empty) line. -/
def splitLines : List Char → List (List Char)
  | [] => [[]]
  | c :: rest =>
    if c = '\n' then [] :: splitLines rest
    else
      match splitLines rest with
      | [] => [[c]]
      | l :: ls => (c :: l) :: ls

/-- `lines.join('\n')`. -/
def joinLines : List (List Char) → List Char
  | [] => []
  | [l] => l
  | l :: ls => l ++ '\n' :: joinLines ls

/-! ### Tokenizer (`SearchEngine.tokenize`, `SearchEngine.isStopWord`) -/

/-- The fixed stop-word set of `SearchEngine.isStopWord` (the source lists
`as` twice; sets collapse the duplicate). -/
def stopWords : List (List Char) :=
  ["the".toList, "is".toList, "at".toList, "of".toList, "on".toList,
   "and".toList, "a".toList, "an".toList, "in".toList, "to".toList,
   "for".toList, "with".toList, "by".toList, "about".toList, "as".toList,
   "this".toList, "that".toList, "these".toList, "those".toList,
   "are".toList, "was".toList, "were".toList, "be".toList, "been".toList,
   "being".toList, "have".toList, "has".toList, "had".toList, "do".toList,
   "does".toList, "did".toList, "but".toList, "if".toList, "or".toList,
   "because".toList, "until".toList, "while".toList,
   "function".toList, "class".toList, "const".toList, "var".toList,
   "let".toList, "return".toList, "import".toList, "export".toList,
   "default".toList]

def isStopWord (w : List Char) : Bool := stopWords.contains w

/-- Maximal runs of `[a-zA-Z0-9]` characters: the non-empty fragments of
`text.split(/[^a-zA-Z0-9]+/)` (the split's empty fragments are skipped by
the `if (!token) continue` in the source). -/
def alnumRunsGo : List Char → List Char → List (List Char)
  | cur, [] => if cur.isEmpty then [] else [cur.reverse]
  | cur, c :: rest =>
    if isAlnumChar c then alnumRunsGo (c :: cur) rest
    else if cur.isEmpty then alnumRunsGo [] rest
    else cur.reverse :: alnumRunsGo [] rest

def alnumRuns (text : List Char) : List (List Char) := alnumRunsGo [] text

/-- `token.replace(/([a-z])([A-Z])/g, '$1 $2').split(' ')` on a space-free
token: split the token before every uppercase letter that immediately follows
a lowercase letter. -/
def camelSplitGo : List Char → Char → List Char → List (List Char)
  | cur, _, [] => [cur.reverse]
  | cur, prev, c :: rest =>
    if isLowerAZ prev && isUpperAZ c then
      cur.reverse :: camelSplitGo [c] c rest
    else
      camelSplitGo (c :: cur) c rest

def camelSplit : List Char → List (List Char)
  | [] => [[]]
  | c :: rest => camelSplitGo [c] c rest

/-- `SearchEngine.tokenize`: split on non-alphanumeric runs, split camelCase,
lowercase, and keep only fragments of length `> 2` that are not stop words. -/
def tokenize (text : List Char) : List (List Char) :=
  (alnumRuns text).flatMap fun tok =>
    (camelSplit tok).filterMap fun part =>
      let lower := part.map toLowerChar
      if 2 < lower.length && !isStopWord lower then some lower else none

/-- The tokenizer as the spec describes it: sub-fragments (camel-split pieces
of the alphanumeric runs), each lowercased, kept when longer than two
characters and not a stop word, order and duplicates preserved. -/
def refTokenize (text : List Char) : List (List Char) :=
  (((alnumRuns text).flatMap camelSplit).map (List.map toLowerChar)).filter
    fun w => 2 < w.length && !isStopWord w

/-! ### Levenshtein distance (`SearchEngine.levenshteinDistance`)

The source builds a `(len(b)+1) x (len(a)+1)` DP matrix row by row.  We model
the matrix as `levTable a b i j`, the value the loop stores at `matrix[i][j]`,
computed row-recursively exactly as the loop does (row `0` is `0..len(a)`,
column `0` of row `i` is `i`, and every other cell is the standard recurrence
on the three earlier cells, comparing `b.charAt(i-1)` with `a.charAt(j-1)`). -/

/-- One row of the DP matrix: row `rowIdx` (for the character `bc` of `b`),
given the previous row `prev` as a function of the column index. -/
def levRow (a : List Char) (bc : Char) (rowIdx : Nat) (prev : Nat → Nat) :
    Nat → Nat
  | 0 => rowIdx
  | j + 1 =>
    if bc = a.getD j ' ' then prev j
    else Nat.min (prev j + 1)
        (Nat.min (levRow a bc rowIdx prev j + 1) (prev (j + 1) + 1))

/-- The DP matrix of `SearchEngine.levenshteinDistance`: `levTable a b i j`
is `matrix[i][j]`. -/
def levTable (a b : List Char) : Nat → Nat → Nat
  | 0 => fun j => j
  | i + 1 => levRow a (b.getD i ' ') (i + 1) (levTable a b i)

/-- `SearchEngine.levenshteinDistance`, including its two early returns for
empty arguments. -/
def levenshteinDistance (a b : List Char) : Nat :=
  if a.length = 0 then b.length
  else if b.length = 0 then a.length
  else levTable a b b.length a.length

/-- The textbook recursive characterisation of Levenshtein distance. -/
def editDistance : List Char → List Char → Nat
  | [], ys => ys.length
  | _ :: xs, [] => xs.length + 1
  | x :: xs, y :: ys =>
    if x = y then editDistance xs ys
    else 1 + Nat.min (editDistance xs (y :: ys))
        (Nat.min (editDistance (x :: xs) ys) (editDistance xs ys))

/-- A single unit-cost edit operation: insertion, deletion, or substitution
of one character at an arbitrary position. -/
inductive EditStep : List Char → List Char → Prop
  | ins (u v : List Char) (c : Char) : EditStep (u ++ v) (u ++ c :: v)
  | del (u v : List Char) (c : Char) : EditStep (u ++ c :: v) (u ++ v)
  | sub (u v : List Char) (c d : Char) : EditStep (u ++ c :: v) (u ++ d :: v)

/-- `EditSeq n a b`: the string `a` can be transformed into `b` by a chain of
exactly `n` unit-cost edit operations. -/
inductive EditSeq : Nat → List Char → List Char → Prop
  | refl (a : List Char) : EditSeq 0 a a
  | step {a b c : List Char} {n : Nat} :
      EditStep a b → EditSeq n b c → EditSeq (n + 1) a c

/-! ### Data model (`DocumentChunk`, `SearchResult`) -/

inductive ChunkKind
  | markdown
  | code
  | text
deriving DecidableEq, Repr

/-- `DocumentChunk` of `document-processor.ts` (metadata inlined; `title`,
`startLine`, `endLine` are optional exactly as in the interface). -/
structure Chunk where
  id : List Char
  projectId : List Char
  filePath : List Char
  content : List Char
  title : Option (List Char)
  kind : ChunkKind
  startLine : Option Nat
  endLine : Option Nat
deriving DecidableEq, Repr

/-- The `matchType` union of `SearchResult` (the `semantic` variant is
declared in the source type but, as proved below, never produced). -/
inductive MatchType
  | exact
  | fuzzy
  | semantic
deriving DecidableEq, Repr

structure SearchResult where
  chunk : Chunk
  score : ℚ
  matchDetails : List (List Char × MatchType)
deriving DecidableEq, Repr

/-! ### Document processor (`DocumentProcessor`) -/

/-- JS `split` on a single-character separator (general form of
`splitLines`). -/
def splitOnChar (sep : Char) : List Char → List (List Char)
  | [] => [[]]
  | c :: rest =>
    if c = sep then [] :: splitOnChar sep rest
    else
      match splitOnChar sep rest with
      | [] => [[c]]
      | l :: ls => (c :: l) :: ls

/-- The heading test `line.match(/^#{1,3}\s/)`: one to three `#` characters
followed by a whitespace character. -/
def isHeadingLine : List Char → Bool
  | '#' :: c1 :: t1 =>
    if isJsSpace c1 then true
    else if c1 = '#' then
      match t1 with
      | c2 :: t2 =>
        if isJsSpace c2 then true
        else if c2 = '#' then
          match t2 with
          | c3 :: _ => isJsSpace c3
          | [] => false
        else false
      | [] => false
    else false
  | _ => false

/-- `String.prototype.trim` (whitespace from both ends). -/
def jsTrim (l : List Char) : List Char :=
  ((l.dropWhile isJsSpace).reverse.dropWhile isJsSpace).reverse

/-- `line.replace(/^#+\s/, '').trim()`: drop a leading run of `#` plus one
whitespace character when present, then trim. -/
def stripHeadingTitle (l : List Char) : List Char :=
  match l with
  | '#' :: _ =>
    match l.dropWhile (fun c => c = '#') with
    | c :: rest' => if isJsSpace c then jsTrim rest' else jsTrim l
    | [] => jsTrim l
  | _ => jsTrim l

/-- `${projectId}:${filePath}:${startLine}`. -/
def chunkId (pid path : List Char) (startLine : Nat) : List Char :=
  pid ++ ':' :: path ++ ':' :: (Nat.repr startLine).toList

/-- The loop body of `DocumentProcessor.chunkMarkdown`: `i` is the 0-based
index of the next line, `startLine`/`title`/`cur` are the loop's mutable
state, `total` the total number of lines. -/
def chunkMarkdownGo (pid path : List Char) (total : Nat) :
    List (List Char) → Nat → Nat → List Char → List (List Char) → List Chunk
  | [], _, startLine, title, cur =>
    if cur.isEmpty then []
    else [⟨chunkId pid path startLine, pid, path, joinLines cur, some title,
          ChunkKind.markdown, some startLine, some total⟩]
  | l :: rest, i, startLine, title, cur =>
    if isHeadingLine l then
      (if cur.isEmpty then []
       else [⟨chunkId pid path startLine, pid, path, joinLines cur, some title,
             ChunkKind.markdown, some startLine, some i⟩]) ++
        chunkMarkdownGo pid path total rest (i + 1) (i + 1)
          (stripHeadingTitle l) [l]
    else
      chunkMarkdownGo pid path total rest (i + 1) startLine title (cur ++ [l])

/-- `DocumentProcessor.chunkMarkdown`. -/
def chunkMarkdown (pid path content : List Char) : List Chunk :=
  let lines := splitLines content
  chunkMarkdownGo pid path lines.length lines 0 1 "Introduction".toList []

/-- The loop of `DocumentProcessor.chunkCode` (window size 50, stride 40);
`fuel` bounds the number of iterations, `i` is the 0-based window start. -/
def chunkCodeGo (pid path : List Char) (lines : List (List Char)) :
    Nat → Nat → List Chunk
  | 0, _ => []
  | fuel + 1, i =>
    if i < lines.length then
      let e := Nat.min (i + 50) lines.length
      ⟨chunkId pid path (i + 1), pid, path,
       joinLines ((lines.drop i).take (e - i)), none, ChunkKind.code,
       some (i + 1), some e⟩ ::
        (if e = lines.length then [] else chunkCodeGo pid path lines fuel (i + 40))
    else []

/-- `DocumentProcessor.chunkCode`. -/
def chunkCode (pid path content : List Char) : List Chunk :=
  let lines := splitLines content
  chunkCodeGo pid path lines lines.length 0

/-- `DocumentProcessor.chunkText`: one chunk, content capped at 10000
characters, `endLine` the full line count. -/
def chunkText (pid path content : List Char) : List Chunk :=
  [⟨chunkId pid path 1, pid, path, content.take 10000, none, ChunkKind.text,
    some 1, some (splitLines content).length⟩]

def codeExtensions : List (List Char) :=
  ["ts".toList, "js".toList, "py".toList, "java".toList, "go".toList,
   "rs".toList, "c".toList, "cpp".toList, "h".toList]

/-- `DocumentProcessor.chunkDocument`: dispatch on the lowercased last
`.`-separated segment of the path. -/
def chunkDocument (pid path content : List Char) : List Chunk :=
  let ext := ((splitOnChar '.' path).getLastD []).map toLowerChar
  if ext = "md".toList || ext = "markdown".toList then
    chunkMarkdown pid path content
  else if codeExtensions.contains ext then
    chunkCode pid path content
  else
    chunkText pid path content

/-- The window sequence exactly as the spec words it: the first window is
`[1, min(50, N)]`; a window `(s, e)` with `e = N` is the last; otherwise the
next window starts at `s + 40` and ends at `min(s + 89, N)`. -/
def refWindows (n : Nat) (s : Nat) : List (Nat × Nat) :=
  if h : Nat.min (s + 49) n = n then [(s, Nat.min (s + 49) n)]
  else (s, Nat.min (s + 49) n) :: refWindows n (s + 40)
termination_by n - s
decreasing_by
  change ¬ min (s + 49) n = n at h
  rw [Nat.min_def] at h
  split_ifs at h <;> omega

/-! ### Search engine (`SearchEngine`)

`this.index : Map<string, DocumentChunk[]>` is an insertion-ordered
association list.  `Map.set` overwrites in place, `Map.delete` removes,
iteration follows insertion order. -/

def mapGet (m : List (List Char × List Chunk)) (k : List Char) :
    Option (List Chunk) :=
  (m.find? fun e => e.1 = k).map (fun e => e.2)

def mapHas (m : List (List Char × List Chunk)) (k : List Char) : Bool :=
  (mapGet m k).isSome

def mapSet (m : List (List Char × List Chunk)) (k : List Char)
    (v : List Chunk) : List (List Char × List Chunk) :=
  match m with
  | [] => [(k, v)]
  | e :: rest => if e.1 = k then (k, v) :: rest else e :: mapSet rest k v

/-- `new Map(entries)`: later pairs with the same key overwrite earlier
ones, key order is first-insertion order. -/
def mapFromEntries (entries : List (List Char × List Chunk)) :
    List (List Char × List Chunk) :=
  entries.foldl (fun m e => mapSet m e.1 e.2) []

/-- The engine state: just the in-memory index (persistence is a logged
side effect that never feeds back into it). -/
structure EngineState where
  index : List (List Char × List Chunk)
deriving DecidableEq, Repr

/-- `SearchEngine.indexProject` (the `saveIndex` side effect does not touch
the in-memory state). -/
def indexProject (st : EngineState) (pid : List Char) (chunks : List Chunk) :
    EngineState :=
  ⟨mapSet st.index pid chunks⟩

/-- `SearchEngine.clearIndex`. -/
def clearIndex (st : EngineState) (pid : List Char) : EngineState :=
  ⟨st.index.filter fun e => !(e.1 = pid : Bool)⟩

/-- `SearchEngine.loadIndex`: the snapshot decode either succeeds with a
list of entries (`some`) or fails in any way — file absent, unreadable, or
unparsable — (`none`); failure leaves the freshly constructed empty index. -/
def loadIndex (snapshot : Option (List (List Char × List Chunk))) :
    EngineState :=
  match snapshot with
  | some entries => ⟨mapFromEntries entries⟩
  | none => ⟨[]⟩

/-- Count of matches of `contentLower.match(new RegExp(term, 'gi'))`:
left-to-right, non-overlapping occurrences (the regex engine resumes after
each match).  `fuel` bounds the scan; `countOcc` supplies enough. -/
def countOccF (pat : List Char) : Nat → List Char → Nat
  | 0, _ => 0
  | _, [] => 0
  | fuel + 1, c :: rest =>
    if pat ≠ [] ∧ pat.isPrefixOf (c :: rest) then
      1 + countOccF pat fuel ((c :: rest).drop pat.length)
    else countOccF pat fuel rest

def countOcc (pat text : List Char) : Nat := countOccF pat text.length text

/-- `text.includes(pat)` (case handling is done by the callers, which pass
lowercased arguments). -/
def containsSub (pat : List Char) : List Char → Bool
  | [] => pat.isEmpty
  | c :: rest => pat.isPrefixOf (c :: rest) || containsSub pat rest

/-- The fuzzy-match test of the scoring loop:
`levenshteinDistance(term, token) <= 2`. -/
def fuzzyMatch (term tok : List Char) : Bool :=
  levenshteinDistance term tok ≤ 2

def bm25K1 : ℚ := 6 / 5

def bm25B : ℚ := 3 / 4

/-- `chunk.metadata.title?.toLowerCase() || ''`. -/
def titleLower (ch : Chunk) : List Char :=
  (ch.title.getD []).map toLowerChar

/-- Normalise the optional `projectId` argument by JS truthiness: an empty
string behaves exactly like an absent argument everywhere the source tests
`projectId && …`. -/
def jsTruthyId : Option (List Char) → Option (List Char)
  | some p => if p.isEmpty then none else some p
  | none => none

/-- First half of the per-term loop: `termFreq` and the `matchType` flag.
Exact (substring) occurrences are counted first; only when there are none
are the chunk's tokens fuzzy-matched. -/
def termFreqAndType (term : List Char) (ch : Chunk) : Nat × Option MatchType :=
  if 0 < countOcc term (ch.content.map toLowerChar) then
    (countOcc term (ch.content.map toLowerChar), some MatchType.exact)
  else
    ((tokenize ch.content).countP fun tok => fuzzyMatch term tok,
     if 0 < (tokenize ch.content).countP fun tok => fuzzyMatch term tok then
       some MatchType.fuzzy
     else none)

/-- The BM25 contribution of one term with frequency `tf` in a chunk of
content length `dl`. -/
def bm25Term (idfT : ℚ) (avg : ℚ) (dl : ℚ) (tf : Nat) : ℚ :=
  idfT * tf * (bm25K1 + 1) / (tf + bm25K1 * (1 - bm25B + bm25B * (dl / avg)))

/-- The whole per-chunk body of the `scoredChunks` map: BM25 accumulation
with match details, then the flat title boost, then the ×1.5 collection
boost. -/
def scoreAndDetails (idf : List Char → ℚ) (avg : ℚ)
    (pidN : Option (List Char)) (queryTerms : List (List Char)) (ch : Chunk) :
    ℚ × List (List Char × MatchType) :=
  let base := queryTerms.foldl
    (fun acc term =>
      let ft := termFreqAndType term ch
      if 0 < ft.1 then
        (acc.1 + bm25Term (idf term) avg (ch.content.length : ℚ) ft.1,
         acc.2 ++ [(term, ft.2.getD MatchType.exact)])
      else acc)
    ((0 : ℚ), ([] : List (List Char × MatchType)))
  let withTitle := queryTerms.foldl
    (fun acc term => if containsSub term (titleLower ch) then acc + 2 else acc)
    base.1
  let final :=
    match pidN with
    | some p => if ch.projectId = p then withTitle * (3 / 2) else withTitle
    | none => withTitle
  (final, base.2)

/-- Stable descending insertion by score, modelling the (stable) JS
`sort((a, b) => b.score - a.score)`. -/
def insertDesc (r : SearchResult) : List SearchResult → List SearchResult
  | [] => [r]
  | x :: xs => if x.score < r.score then r :: x :: xs else x :: insertDesc r xs

def sortByScoreDesc (l : List SearchResult) : List SearchResult :=
  l.foldr insertDesc []

/-- Candidate collection (and the aliasing write-back): with a truthy,
known `projectId` the stored array for that collection is the array being
extended with every other collection's chunks, so the state's entry for
`projectId` ends up holding the whole candidate list. -/
def allChunksAndState (st : EngineState) (pidN : Option (List Char)) :
    List Chunk × EngineState :=
  match pidN with
  | some p =>
    if mapHas st.index p then
      ((mapGet st.index p).getD [] ++
        ((st.index.filter fun e => !(e.1 = p : Bool)).flatMap fun e => e.2),
       ⟨mapSet st.index p
         ((mapGet st.index p).getD [] ++
          ((st.index.filter fun e => !(e.1 = p : Bool)).flatMap
            fun e => e.2))⟩)
    else ((st.index.flatMap fun e => e.2), st)
  | none => ((st.index.flatMap fun e => e.2), st)

/-- The average candidate content length (in characters), the BM25
length-normalisation baseline. -/
def avgOf (all : List Chunk) : ℚ :=
  (all.foldl (fun s ch => s + (ch.content.length : ℚ)) 0) / (all.length : ℚ)

/-- The smoothed IDF `ln(1 + (N - df + 0.5) / (df + 0.5))` of a term over
the candidate set, `df` counting candidates containing the term as a
case-insensitive substring. -/
def idfOf (lg : ℚ → ℚ) (all : List Chunk) (term : List Char) : ℚ :=
  let df : Nat :=
    all.countP fun ch => containsSub term (ch.content.map toLowerChar)
  lg (1 + (((all.length : ℚ) - (df : ℚ) + 1 / 2) / ((df : ℚ) + 1 / 2)))

/-- The pure scoring tail of `SearchEngine.search`: given the candidate
list, tokenize the query, compute IDF and average length, score every
candidate, filter positives, sort descending (stably), truncate. -/
def rankCandidates (lg : ℚ → ℚ) (pidN : Option (List Char))
    (all : List Chunk) (query : List Char) (lim : Nat) : List SearchResult :=
  if all.isEmpty then []
  else if (tokenize query).isEmpty then []
  else
    ((sortByScoreDesc
      ((all.map fun ch =>
        SearchResult.mk ch
          (scoreAndDetails (idfOf lg all) (avgOf all) pidN (tokenize query) ch).1
          (scoreAndDetails (idfOf lg all) (avgOf all) pidN (tokenize query) ch).2).filter
        fun r => (0 < r.score : Bool))).take lim)

/-- `SearchEngine.search(projectId?, query, limit)`: returns the results
and the post-call state (which differs from the input state exactly by the
candidate-aliasing write-back of `allChunksAndState`). -/
def searchStep (lg : ℚ → ℚ) (st : EngineState) (pid : Option (List Char))
    (query : List Char) (lim : Nat) : List SearchResult × EngineState :=
  let pidN := jsTruthyId pid
  let p := allChunksAndState st pidN
  (rankCandidates lg pidN p.1 query lim, p.2)

/-- All chunk values stored anywhere in the index. -/
def allChunkVals (st : EngineState) : List Chunk :=
  st.index.flatMap fun e => e.2

/-! ### Reference scoring definition (following the spec's wording) -/

/-- Reference `termFreq`: the count of case-insensitive substring
occurrences of the term in the chunk content if that count is at least 1,
otherwise the count of the chunk's tokens within Levenshtein distance 2 of
the term. -/
def refTermFreq (term : List Char) (ch : Chunk) : Nat :=
  let occ := countOcc term (ch.content.map toLowerChar)
  if 1 ≤ occ then occ
  else
    ((tokenize ch.content).filter fun tok =>
      levenshteinDistance term tok ≤ 2).length

/-- Reference chunk score: each term with positive `termFreq` contributes
`idf * termFreq * (k1+1) / (termFreq + k1 * (1 - b + b * docLength/avgDocLength))`
with `k1 = 1.2`, `b = 0.75`; then `2.0` per query term occurring in the
title; finally `×1.5` when a collection id was given and the chunk belongs
to it. -/
def refChunkScore (idf : List Char → ℚ) (avg : ℚ)
    (pidN : Option (List Char)) (terms : List (List Char)) (ch : Chunk) : ℚ :=
  let contribution := fun term =>
    let tf := refTermFreq term ch
    if 0 < tf then
      idf term * (tf : ℚ) * ((6 / 5 : ℚ) + 1) /
        ((tf : ℚ) + (6 / 5 : ℚ) *
          (1 - (3 / 4 : ℚ) + (3 / 4 : ℚ) * ((ch.content.length : ℚ) / avg)))
    else 0
  let baseSum := (terms.map contribution).sum
  let titleBoost : ℚ :=
    2 * ((terms.filter fun t => containsSub t (titleLower ch)).length : ℚ)
  let total := baseSum + titleBoost
  match pidN with
  | some p => if ch.projectId = p then total * (3 / 2) else total
  | none => total

/-! ### Concrete fixtures for the closed runs -/

/-- A concrete stand-in for `Math.log`: positive on arguments above 1, as
the real logarithm is on every IDF argument the engine produces. -/
def lg0 : ℚ → ℚ := fun x => if 1 < x then 1 else 0

def chA : Chunk :=
  ⟨"ca".toList, "aaa".toList, "doc.md".toList, "hello world".toList, none,
   ChunkKind.markdown, some 1, some 1⟩

def chB : Chunk :=
  ⟨"cb".toList, "bbb".toList, "doc.md".toList, "goodbye moon".toList, none,
   ChunkKind.markdown, some 1, some 1⟩

def chA2 : Chunk :=
  ⟨"ca2".toList, "aaa".toList, "doc.md".toList, "fresh hello".toList, none,
   ChunkKind.markdown, some 1, some 1⟩

/-- 1-based positions of the heading lines, starting the numbering at `k`. -/
def headingPositions : List (List Char) → Nat → List Nat
  | [], _ => []
  | l :: rest, k =>
    if isHeadingLine l then k :: headingPositions rest (k + 1)
    else headingPositions rest (k + 1)

theorem splitLines_ne_nil (s : List Char) : splitLines s ≠ [] := by
  induction s with
  | nil => simp [splitLines]
  | cons c rest ih =>
    simp only [splitLines]
    split
    · simp
    · cases h : splitLines rest <;> simp

theorem joinLines_splitLines (s : List Char) : joinLines (splitLines s) = s := by
  induction s with
  | nil => rfl
  | cons c rest ih =>
    simp only [splitLines]
    split
    · rename_i hc
      subst hc
      cases h : splitLines rest with
      | nil => exact absurd h (splitLines_ne_nil rest)
      | cons l ls =>
        rw [h] at ih
        simp [joinLines, ih]

    · cases h : splitLines rest with
      | nil => exact absurd h (splitLines_ne_nil rest)
      | cons l ls =>
        rw [h] at ih
        cases ls with
        | nil => simp_all [joinLines]
        | cons l2 ls2 => simp_all [joinLines]

theorem filterMap_lower_filter (parts : List (List Char)) :
    (parts.filterMap fun part =>
      let lower := part.map toLowerChar
      if 2 < lower.length && !isStopWord lower then some lower else none) =
    (parts.map (List.map toLowerChar)).filter
      (fun w => 2 < w.length && !isStopWord w) := by
  induction parts with
  | nil => rfl
  | cons p rest ih =>
    simp only [List.filterMap_cons, List.map_cons, List.filter_cons]
    cases hb : decide (2 < (List.map toLowerChar p).length) &&
        !isStopWord (List.map toLowerChar p) <;>
      simp [hb] <;> simpa using ih

/-- C6: `tokenize` splits on runs of non-alphanumerics, inserts a boundary
between a lowercase letter followed by an uppercase letter, lowercases each
sub-fragment, and drops sub-fragments of length ≤ 2 or in the stop-word set,
preserving order and duplicates; `tokenize "GitLabCrawlerTest"` yields
`["git", "lab", "crawler", "test"]`. -/
theorem tokenize_spec :
    (∀ text : List Char, tokenize text = refTokenize text) ∧
    tokenize "GitLabCrawlerTest".toList =
      ["git".toList, "lab".toList, "crawler".toList, "test".toList] := by
  constructor
  · intro text
    unfold tokenize refTokenize
    rw [List.map_flatMap, List.filter_flatMap]
    congr 1
    funext tok
    exact filterMap_lower_filter (camelSplit tok)
  · decide

theorem ed_nil_right (xs : List Char) : editDistance xs [] = xs.length := by
  cases xs <;> simp [editDistance]

theorem ed_eq_of_eq {x y : Char} (h : x = y) (xs ys : List Char) :
    editDistance (x :: xs) (y :: ys) = editDistance xs ys := by
  subst h
  simp [editDistance]

theorem ed_ne_of_ne {x y : Char} (h : ¬ x = y) (xs ys : List Char) :
    editDistance (x :: xs) (y :: ys) =
      1 + Nat.min (editDistance xs (y :: ys))
        (Nat.min (editDistance (x :: xs) ys) (editDistance xs ys)) := by
  simp [editDistance, h]

theorem ed_comm : ∀ a b : List Char, editDistance a b = editDistance b a
  | [], [] => rfl
  | [], _ :: _ => by simp [editDistance]
  | _ :: _, [] => by simp [editDistance]
  | x :: xs, y :: ys => by
    by_cases h : x = y
    · rw [ed_eq_of_eq h, ed_eq_of_eq h.symm]
      exact ed_comm xs ys
    · have h' : ¬ y = x := fun e => h e.symm
      rw [ed_ne_of_ne h, ed_ne_of_ne h']
      rw [ed_comm xs (y :: ys), ed_comm (x :: xs) ys, ed_comm xs ys]
      simp only [Nat.min_def]
      split_ifs <;> omega
termination_by a b => a.length + b.length
decreasing_by all_goals simp <;> omega

/-- Removing or adding a head character changes `editDistance` by at most 1
(both directions, proved jointly). -/
theorem ed_cons_bounds : ∀ (v b : List Char) (c : Char),
    editDistance v b ≤ editDistance (c :: v) b + 1 ∧
    editDistance (c :: v) b ≤ editDistance v b + 1
  | v, [], c => by
    refine ⟨?_, ?_⟩ <;> simp [ed_nil_right] <;> omega
  | v, y :: b', c => by
    have comm2B : editDistance v (y :: b') ≤ editDistance v b' + 1 := by
      rw [ed_comm v (y :: b'), ed_comm v b']
      exact (ed_cons_bounds b' v y).2
    have comm2A : editDistance v b' ≤ editDistance v (y :: b') + 1 := by
      rw [ed_comm v (y :: b'), ed_comm v b']
      exact (ed_cons_bounds b' v y).1
    constructor
    · by_cases h : c = y
      · rw [ed_eq_of_eq h]
        omega
      · have hA : editDistance v b' ≤ editDistance (c :: v) b' + 1 :=
          (ed_cons_bounds v b' c).1
        rw [ed_ne_of_ne h]
        simp only [Nat.min_def]
        split_ifs <;> omega
    · by_cases h : c = y
      · rw [ed_eq_of_eq h]
        omega
      · rw [ed_ne_of_ne h]
        simp only [Nat.min_def]
        split_ifs <;> omega
termination_by v b c => v.length + b.length
decreasing_by all_goals simp <;> omega

/-- Substituting the head character changes `editDistance` by at most 1. -/
theorem ed_sub_head : ∀ (b v : List Char) (c d : Char),
    editDistance (c :: v) b ≤ editDistance (d :: v) b + 1
  | [], v, c, d => by simp [ed_nil_right]
  | y :: b', v, c, d => by
    have h2A : editDistance v b' ≤ editDistance v (y :: b') + 1 := by
      rw [ed_comm v (y :: b'), ed_comm v b']
      exact (ed_cons_bounds b' v y).1
    by_cases hc : c = y <;> by_cases hd : d = y
    · rw [ed_eq_of_eq hc, ed_eq_of_eq hd]
      omega
    · have hA : editDistance v b' ≤ editDistance (d :: v) b' + 1 :=
        (ed_cons_bounds v b' d).1
      rw [ed_eq_of_eq hc, ed_ne_of_ne hd]
      simp only [Nat.min_def]
      split_ifs <;> omega
    · rw [ed_ne_of_ne hc, ed_eq_of_eq hd]
      simp only [Nat.min_def]
      split_ifs <;> omega
    · have ih : editDistance (c :: v) b' ≤ editDistance (d :: v) b' + 1 :=
        ed_sub_head b' v c d
      rw [ed_ne_of_ne hc, ed_ne_of_ne hd]
      simp only [Nat.min_def]
      split_ifs <;> omega

/-- Deleting a character at any position increases `editDistance` by at
most 1. -/
theorem ed_del_le : ∀ (u b v : List Char) (c : Char),
    editDistance (u ++ v) b ≤ editDistance (u ++ c :: v) b + 1
  | [], b, v, c => (ed_cons_bounds v b c).1
  | x :: u', [], v, c => by simp [ed_nil_right]; try omega
  | x :: u', y :: b', v, c => by
    by_cases h : x = y
    · simp only [List.cons_append]
      rw [ed_eq_of_eq h, ed_eq_of_eq h]
      exact ed_del_le u' b' v c
    · have f1 := ed_del_le u' (y :: b') v c
      have f2 := ed_del_le (x :: u') b' v c
      have f3 := ed_del_le u' b' v c
      simp only [List.cons_append] at f1 f2 f3 ⊢
      rw [ed_ne_of_ne h, ed_ne_of_ne h]
      simp only [Nat.min_def]
      split_ifs <;> omega
termination_by u b v c => u.length + b.length
decreasing_by all_goals simp <;> omega

/-- Inserting a character at any position increases `editDistance` by at
most 1. -/
theorem ed_ins_le : ∀ (u b v : List Char) (c : Char),
    editDistance (u ++ c :: v) b ≤ editDistance (u ++ v) b + 1
  | [], b, v, c => (ed_cons_bounds v b c).2
  | x :: u', [], v, c => by simp [ed_nil_right]; try omega
  | x :: u', y :: b', v, c => by
    by_cases h : x = y
    · simp only [List.cons_append]
      rw [ed_eq_of_eq h, ed_eq_of_eq h]
      exact ed_ins_le u' b' v c
    · have f1 := ed_ins_le u' (y :: b') v c
      have f2 := ed_ins_le (x :: u') b' v c
      have f3 := ed_ins_le u' b' v c
      simp only [List.cons_append] at f1 f2 f3 ⊢
      rw [ed_ne_of_ne h, ed_ne_of_ne h]
      simp only [Nat.min_def]
      split_ifs <;> omega
termination_by u b v c => u.length + b.length
decreasing_by all_goals simp <;> omega

/-- Substituting a character at any position changes `editDistance` by at
most 1. -/
theorem ed_sub_le : ∀ (u b v : List Char) (c d : Char),
    editDistance (u ++ c :: v) b ≤ editDistance (u ++ d :: v) b + 1
  | [], b, v, c, d => ed_sub_head b v c d
  | x :: u', [], v, c, d => by simp [ed_nil_right]; try omega
  | x :: u', y :: b', v, c, d => by
    by_cases h : x = y
    · simp only [List.cons_append]
      rw [ed_eq_of_eq h, ed_eq_of_eq h]
      exact ed_sub_le u' b' v c d
    · have f1 := ed_sub_le u' (y :: b') v c d
      have f2 := ed_sub_le (x :: u') b' v c d
      have f3 := ed_sub_le u' b' v c d
      simp only [List.cons_append] at f1 f2 f3 ⊢
      rw [ed_ne_of_ne h, ed_ne_of_ne h]
      simp only [Nat.min_def]
      split_ifs <;> omega
termination_by u b v c d => u.length + b.length
decreasing_by all_goals simp <;> omega

/-- One edit on the left argument changes `editDistance` by at most 1. -/
theorem ed_editStep_le {a a2 : List Char} (h : EditStep a a2) (b : List Char) :
    editDistance a b ≤ editDistance a2 b + 1 := by
  cases h with
  | ins u v c => exact ed_del_le u b v c
  | del u v c => exact ed_ins_le u b v c
  | sub u v c d => exact ed_sub_le u b v c d

theorem ed_self (a : List Char) : editDistance a a = 0 := by
  induction a with
  | nil => simp [editDistance]
  | cons x xs ih => rw [ed_eq_of_eq rfl, ih]

/-- Lower bound: no edit script is shorter than `editDistance`. -/
theorem ed_le_editSeq {n : Nat} {a b : List Char} (h : EditSeq n a b) :
    editDistance a b ≤ n := by
  induction h with
  | refl a => simp [ed_self]
  | step s _ ih =>
    rename_i a' b' c' n' _
    have := ed_editStep_le s c'
    omega

theorem editStep_cons {u v : List Char} (x : Char) (h : EditStep u v) :
    EditStep (x :: u) (x :: v) := by
  cases h with
  | ins u v c => exact EditStep.ins (x :: u) v c
  | del u v c => exact EditStep.del (x :: u) v c
  | sub u v c d => exact EditStep.sub (x :: u) v c d

theorem editSeq_cons {n : Nat} {u v : List Char} (x : Char)
    (h : EditSeq n u v) : EditSeq n (x :: u) (x :: v) := by
  induction h with
  | refl a => exact EditSeq.refl (x :: a)
  | step s _ ih => exact EditSeq.step (editStep_cons x s) ih

theorem editSeq_snoc {n : Nat} {a b c : List Char} (h : EditSeq n a b)
    (s : EditStep b c) : EditSeq (n + 1) a c := by
  induction h with
  | refl a => exact EditSeq.step s (EditSeq.refl c)
  | step s0 _ ih => exact EditSeq.step s0 (ih s)

theorem editSeq_insert_all (l : List Char) : EditSeq l.length [] l := by
  induction l with
  | nil => exact EditSeq.refl []
  | cons c l' ih =>
    exact EditSeq.step (EditStep.ins [] [] c) (editSeq_cons c ih)

theorem editSeq_delete_all (l : List Char) : EditSeq l.length l [] := by
  induction l with
  | nil => exact EditSeq.refl []
  | cons c l' ih =>
    exact EditSeq.step (EditStep.del [] l' c) ih

/-- Upper bound: an edit script of length exactly `editDistance a b`
exists. -/
theorem editSeq_ed : ∀ a b : List Char, EditSeq (editDistance a b) a b
  | [], ys => by
    have h := editSeq_insert_all ys
    simpa [editDistance] using h
  | x :: xs, [] => by
    have h := editSeq_delete_all (x :: xs)
    simpa [editDistance, ed_nil_right] using h
  | x :: xs, y :: ys => by
    by_cases h : x = y
    · rw [ed_eq_of_eq h]
      subst h
      exact editSeq_cons x (editSeq_ed xs ys)
    · rw [ed_ne_of_ne h]
      have h1 := editSeq_ed xs (y :: ys)
      have h2 := editSeq_ed (x :: xs) ys
      have h3 := editSeq_ed xs ys
      set t1 := editDistance xs (y :: ys) with ht1
      set t2 := editDistance (x :: xs) ys with ht2
      set t3 := editDistance xs ys with ht3
      have hm : 1 + Nat.min t1 (Nat.min t2 t3) = t1 + 1 ∨
          1 + Nat.min t1 (Nat.min t2 t3) = t2 + 1 ∨
          1 + Nat.min t1 (Nat.min t2 t3) = t3 + 1 := by
        simp only [Nat.min_def]
        split_ifs <;> omega
      rcases hm with hm | hm | hm <;> rw [hm]
      · exact EditSeq.step (EditStep.del [] xs x) h1
      · exact editSeq_snoc h2 (EditStep.ins [] ys y)
      · exact EditSeq.step (EditStep.sub [] xs x y) (editSeq_cons y h3)
termination_by a b => a.length + b.length
decreasing_by all_goals simp <;> omega

theorem editStep_reverse {a b : List Char} (h : EditStep a b) :
    EditStep a.reverse b.reverse := by
  cases h with
  | ins u v c =>
    have h2 := EditStep.ins v.reverse u.reverse c
    simpa [List.reverse_append, List.append_assoc] using h2
  | del u v c =>
    have h2 := EditStep.del v.reverse u.reverse c
    simpa [List.reverse_append, List.append_assoc] using h2
  | sub u v c d =>
    have h2 := EditStep.sub v.reverse u.reverse c d
    simpa [List.reverse_append, List.append_assoc] using h2

theorem editSeq_reverse {n : Nat} {a b : List Char} (h : EditSeq n a b) :
    EditSeq n a.reverse b.reverse := by
  induction h with
  | refl a => exact EditSeq.refl a.reverse
  | step s _ ih => exact EditSeq.step (editStep_reverse s) ih

theorem editStep_symm {a b : List Char} (h : EditStep a b) : EditStep b a := by
  cases h with
  | ins u v c => exact EditStep.del u v c
  | del u v c => exact EditStep.ins u v c
  | sub u v c d => exact EditStep.sub u v d c

theorem editSeq_symm {n : Nat} {a b : List Char} (h : EditSeq n a b) :
    EditSeq n b a := by
  induction h with
  | refl a => exact EditSeq.refl a
  | step s _ ih => exact editSeq_snoc ih (editStep_symm s)

/-- Cell `(i, j)` of the source's DP matrix is the edit distance between the
(reversed) `i`-prefix of `b` and the (reversed) `j`-prefix of `a`. -/
theorem levTable_eq :
    ∀ (a b : List Char) (i j : Nat), i ≤ b.length → j ≤ a.length →
      levTable a b i j = editDistance (b.take i).reverse (a.take j).reverse
  | a, b, 0, j, _, hj => by
    simp [levTable, editDistance, List.length_take]
    omega
  | a, b, i + 1, 0, hi, _ => by
    simp [levTable, levRow, ed_nil_right, List.length_take]
    omega
  | a, b, i + 1, j + 1, hi, hj => by
    have hi' : i < b.length := by omega
    have hj' : j < a.length := by omega
    have hbt : (b.take (i + 1)).reverse = b[i] :: (b.take i).reverse := by
      rw [List.take_succ]
      simp [List.getElem?_eq_getElem hi', List.reverse_append]
    have hat : (a.take (j + 1)).reverse = a[j] :: (a.take j).reverse := by
      rw [List.take_succ]
      simp [List.getElem?_eq_getElem hj', List.reverse_append]
    have hgb : b.getD i ' ' = b[i] := by
      simp [List.getD_eq_getElem?_getD, List.getElem?_eq_getElem hi']
    have hga : a.getD j ' ' = a[j] := by
      simp [List.getD_eq_getElem?_getD, List.getElem?_eq_getElem hj']
    have IH1 : levTable a b i j =
        editDistance (b.take i).reverse (a.take j).reverse :=
      levTable_eq a b i j (by omega) (by omega)
    have IH2 : levTable a b i (j + 1) =
        editDistance (b.take i).reverse (a[j] :: (a.take j).reverse) := by
      rw [levTable_eq a b i (j + 1) (by omega) hj, hat]
    have IH3 : levTable a b (i + 1) j =
        editDistance (b[i] :: (b.take i).reverse) (a.take j).reverse := by
      rw [levTable_eq a b (i + 1) j hi (by omega), hbt]
    rw [hbt, hat]
    simp only [levTable] at IH3 ⊢
    rw [hgb] at IH3
    rw [levRow, hgb, hga]
    by_cases hxy : b[i] = a[j]
    · rw [if_pos hxy, ed_eq_of_eq hxy, IH1]
    · rw [if_neg hxy, ed_ne_of_ne hxy, IH1, IH2, IH3]
      simp only [Nat.min_def]
      split_ifs <;> omega
termination_by a b i j => (i, j)

/-- `levenshteinDistance a b` agrees with the recursive edit distance of the
reversed strings (the matrix is prefix-indexed, so the recursion peels the
reversed lists). -/
theorem lev_eq_ed_revs (a b : List Char) :
    levenshteinDistance a b = editDistance b.reverse a.reverse := by
  unfold levenshteinDistance
  by_cases ha : a.length = 0
  · have ha' : a = [] := List.length_eq_zero.mp ha
    subst ha'
    simp [ed_nil_right]
  · rw [if_neg ha]
    by_cases hb : b.length = 0
    · have hb' : b = [] := List.length_eq_zero.mp hb
      subst hb'
      simp [editDistance]
    · rw [if_neg hb]
      rw [levTable_eq a b b.length a.length (Nat.le_refl _) (Nat.le_refl _)]
      rw [List.take_length, List.take_length]

/-- C5: the text strategy returns exactly one chunk whose content is the
first `min(10000, length)` characters (exactly 10000 for longer input)
while `endLine` is the line count of the full untruncated input. -/
theorem chunkText_spec :
    ∀ pid path content : List Char,
      chunkText pid path content =
        [⟨chunkId pid path 1, pid, path, content.take 10000, none,
          ChunkKind.text, some 1, some (splitLines content).length⟩] ∧
      (10000 ≤ content.length → (content.take 10000).length = 10000) := by
  intro pid path content
  refine ⟨rfl, fun h => ?_⟩
  simp [List.length_take]
  omega

theorem chunkText_spec_witness :
    10000 ≤ (List.replicate 10001 'a').length ∧
    ((List.replicate 10001 'a').take 10000).length = 10000 :=
  ⟨by rw [List.length_replicate]; omega,
   (chunkText_spec [] [] (List.replicate 10001 'a')).2
     (by rw [List.length_replicate]; omega)⟩

theorem chunkCodeGo_windows :
    ∀ (fuel i : Nat) (pid path : List Char) (lines : List (List Char)),
      i < lines.length → lines.length - i ≤ 40 * fuel →
      (chunkCodeGo pid path lines fuel i).map
          (fun ch => (ch.startLine, ch.endLine)) =
        (refWindows lines.length (i + 1)).map
          (fun w => (some w.1, some w.2)) := by
  intro fuel
  induction fuel with
  | zero =>
    intro i pid path lines hi hfuel
    omega
  | succ fuel ih =>
    intro i pid path lines hi hfuel
    have hadd : i + 1 + 49 = i + 50 := by omega
    rw [refWindows, hadd]
    simp only [chunkCodeGo, if_pos hi]
    have hmin : Nat.min (i + 50) lines.length =
        if i + 50 ≤ lines.length then i + 50 else lines.length :=
      Nat.min_def
    by_cases he : Nat.min (i + 50) lines.length = lines.length
    · rw [if_pos he, dif_pos he]
      simp [he]
    · rw [if_neg he, dif_neg he]
      have hlt : i + 50 < lines.length := by
        rw [hmin] at he
        split_ifs at he <;> omega
      have htail := ih (i + 40) pid path lines (by omega) (by omega)
      have hadd2 : i + 40 + 1 = i + 41 := by omega
      rw [hadd2] at htail
      simp only [List.map_cons, htail]

/-- C4: the code strategy emits windows `[1, min(50, N)]`,
`[41, min(90, N)]`, … each starting 40 lines past the previous start and
clipped to `N`, stopping with the first window that reaches line `N`. -/
theorem chunkCode_windows_spec :
    ∀ pid path content : List Char,
      (chunkCode pid path content).map (fun ch => (ch.startLine, ch.endLine)) =
        (refWindows (splitLines content).length 1).map
          (fun w => (some w.1, some w.2)) := by
  intro pid path content
  have hlen : 0 < (splitLines content).length := by
    cases h : splitLines content with
    | nil => exact absurd h (splitLines_ne_nil content)
    | cons l ls => simp
  have h := chunkCodeGo_windows (splitLines content).length 0 pid path
    (splitLines content) hlen (by omega)
  unfold chunkCode
  simpa using h

theorem headingPositions_length :
    ∀ (rest : List (List Char)) (k : Nat),
      (headingPositions rest k).length = rest.countP isHeadingLine := by
  intro rest
  induction rest with
  | nil => intro k; simp [headingPositions]
  | cons l r' ih =>
    intro k
    simp only [headingPositions, List.countP_cons]
    by_cases hl : isHeadingLine l = true
    · simp [hl, ih]
    · simp [hl, ih, List.length_cons]

theorem chunkMarkdownGo_no_heading (pid path : List Char) (total : Nat) :
    ∀ (rest : List (List Char)) (i startLine : Nat) (title : List Char)
      (cur : List (List Char)),
      rest.countP isHeadingLine = 0 →
      chunkMarkdownGo pid path total rest i startLine title cur =
        (if (cur ++ rest).isEmpty then []
         else [⟨chunkId pid path startLine, pid, path, joinLines (cur ++ rest),
               some title, ChunkKind.markdown, some startLine, some total⟩]) := by
  intro rest
  induction rest with
  | nil => intro i s t cur h; simp [chunkMarkdownGo]
  | cons l r' ih =>
    intro i s t cur h
    simp only [List.countP_cons] at h
    have hl : isHeadingLine l = false := by
      by_cases hb : isHeadingLine l = true
      · simp [hb] at h
      · simpa using hb
    simp only [chunkMarkdownGo, hl, Bool.false_eq_true, if_false]
    rw [ih (i + 1) s t (cur ++ [l]) (by omega)]
    rw [List.append_assoc, List.singleton_append]

theorem chunkMarkdownGo_startLines (pid path : List Char) (total : Nat) :
    ∀ (rest : List (List Char)) (i s : Nat) (t : List Char)
      (cur : List (List Char)),
      (chunkMarkdownGo pid path total rest i s t cur).map
          (fun c => c.startLine) =
        (if cur.isEmpty &&
            (match rest with
             | [] => true
             | l :: _ => isHeadingLine l) then ([] : List (Option Nat))
         else [some s]) ++ (headingPositions rest (i + 1)).map some := by
  intro rest
  induction rest with
  | nil =>
    intro i s t cur
    by_cases hc : cur.isEmpty <;>
      simp [chunkMarkdownGo, headingPositions, hc]
  | cons l r' ih =>
    intro i s t cur
    by_cases hl : isHeadingLine l = true
    · simp only [chunkMarkdownGo, hl, if_true, List.map_append]
      rw [ih (i + 1) (i + 1) (stripHeadingTitle l) [l]]
      simp only [headingPositions, hl, if_true, List.map_cons]
      by_cases hc : cur.isEmpty <;>
        simp [hc]
    · have hl' : isHeadingLine l = false := by simpa using hl
      simp only [chunkMarkdownGo, hl', Bool.false_eq_true, if_false]
      rw [ih (i + 1) s t (cur ++ [l])]
      simp only [headingPositions, hl', Bool.false_eq_true, if_false]
      have hno : (cur ++ [l]).isEmpty = false := by
        simp [List.isEmpty_iff]
      simp [hno, hl']

/-- C3: markdown without headings gives exactly one chunk titled
`Introduction` spanning the whole document; with headings the chunk count is
the heading count plus one for leading content, and the chunks' `startLine`s
are 1 (for the leading chunk, when present) followed by the 1-based line
numbers of the headings. -/
theorem chunkMarkdown_spec :
    ∀ pid path content : List Char,
      ((splitLines content).countP isHeadingLine = 0 →
        chunkMarkdown pid path content =
          [⟨chunkId pid path 1, pid, path, content, some "Introduction".toList,
            ChunkKind.markdown, some 1, some (splitLines content).length⟩]) ∧
      (chunkMarkdown pid path content).length =
        (splitLines content).countP isHeadingLine +
          (if isHeadingLine ((splitLines content).headD []) then 0 else 1) ∧
      (chunkMarkdown pid path content).map (fun c => c.startLine) =
        (if isHeadingLine ((splitLines content).headD []) then []
         else [some 1]) ++ (headingPositions (splitLines content) 1).map some := by
  intro pid path content
  have hmap := chunkMarkdownGo_startLines pid path (splitLines content).length
    (splitLines content) 0 1 "Introduction".toList []
  have hne := splitLines_ne_nil content
  refine ⟨?_, ?_, ?_⟩
  · intro h0
    unfold chunkMarkdown
    rw [chunkMarkdownGo_no_heading pid path (splitLines content).length
      (splitLines content) 0 1 "Introduction".toList [] h0]
    rw [List.nil_append]
    rw [if_neg (by simpa [List.isEmpty_iff] using hne)]
    rw [joinLines_splitLines]
  · have hlen := congrArg List.length hmap
    rw [List.length_map] at hlen
    unfold chunkMarkdown
    rw [hlen]
    cases hsl : splitLines content with
    | nil => exact absurd hsl hne
    | cons l ls =>
      by_cases hl : isHeadingLine l = true <;>
        simp [hl, headingPositions_length, List.countP_cons]
  · unfold chunkMarkdown
    rw [hmap]
    cases hsl : splitLines content with
    | nil => exact absurd hsl hne
    | cons l ls =>
      by_cases hl : isHeadingLine l = true <;> simp [hl]

theorem chunkMarkdown_spec_witness :
    (splitLines "hello\nworld".toList).countP isHeadingLine = 0 ∧
    chunkMarkdown [] [] "hello\nworld".toList =
      [⟨chunkId [] [] 1, [], [], "hello\nworld".toList,
        some "Introduction".toList, ChunkKind.markdown, some 1,
        some (splitLines "hello\nworld".toList).length⟩] :=
  ⟨by decide,
   (chunkMarkdown_spec [] [] "hello\nworld".toList).1 (by decide)⟩

theorem termFreq_eq (term : List Char) (ch : Chunk) :
    (termFreqAndType term ch).1 = refTermFreq term ch := by
  unfold termFreqAndType refTermFreq fuzzyMatch
  by_cases h : 0 < countOcc term (ch.content.map toLowerChar)
  · rw [if_pos h,
      if_pos (show 1 ≤ countOcc term (ch.content.map toLowerChar) by omega)]
  · rw [if_neg h,
      if_neg (show ¬ 1 ≤ countOcc term (ch.content.map toLowerChar) by omega)]
    simp [List.countP_eq_length_filter]

theorem base_fold_fst (idf : List Char → ℚ) (avg : ℚ) (ch : Chunk) :
    ∀ (terms : List (List Char)) (acc : ℚ × List (List Char × MatchType)),
      (terms.foldl
        (fun acc term =>
          let ft := termFreqAndType term ch
          if 0 < ft.1 then
            (acc.1 + bm25Term (idf term) avg (ch.content.length : ℚ) ft.1,
             acc.2 ++ [(term, ft.2.getD MatchType.exact)])
          else acc) acc).1 =
      acc.1 + (terms.map (fun term =>
        if 0 < (termFreqAndType term ch).1 then
          bm25Term (idf term) avg (ch.content.length : ℚ)
            (termFreqAndType term ch).1
        else 0)).sum := by
  intro terms
  induction terms with
  | nil => intro acc; simp
  | cons term rest ih =>
    intro acc
    simp only [List.foldl_cons, List.map_cons, List.sum_cons]
    by_cases h : 0 < (termFreqAndType term ch).1
    · simp only [if_pos h]
      rw [ih]
      ring
    · simp only [if_neg h]
      rw [ih]
      ring

theorem title_fold (ch : Chunk) :
    ∀ (terms : List (List Char)) (x : ℚ),
      terms.foldl
        (fun acc term =>
          if containsSub term (titleLower ch) then acc + 2 else acc) x =
      x + 2 * ((terms.filter fun t => containsSub t (titleLower ch)).length : ℚ) := by
  intro terms
  induction terms with
  | nil => intro x; simp
  | cons term rest ih =>
    intro x
    simp only [List.foldl_cons, List.filter_cons]
    by_cases h : containsSub term (titleLower ch) = true
    · simp only [if_pos h, h]
      rw [ih]
      push_cast [List.length_cons]
      ring
    · have h' : containsSub term (titleLower ch) = false := by simpa using h
      simp only [h', Bool.false_eq_true, if_false]
      rw [ih]

/-- C2: the accumulated score of a candidate chunk is exactly the reference
BM25-with-boosts formula: per-term BM25 contributions (exact substring
count, else fuzzy token count, fuzzy skipped when an exact occurrence
exists), plus 2.0 per title-matching term, all multiplied by 1.5 when a
collection id was given and the chunk belongs to it. -/
theorem chunkScore_spec :
    ∀ (idf : List Char → ℚ) (avg : ℚ) (pidN : Option (List Char))
      (terms : List (List Char)) (ch : Chunk),
      (scoreAndDetails idf avg pidN terms ch).1 =
        refChunkScore idf avg pidN terms ch := by
  intro idf avg pidN terms ch
  unfold scoreAndDetails refChunkScore
  have hterm : ∀ term : List Char,
      (if 0 < (termFreqAndType term ch).1 then
        bm25Term (idf term) avg (ch.content.length : ℚ)
          (termFreqAndType term ch).1
      else 0) =
      (if 0 < refTermFreq term ch then
        idf term * (refTermFreq term ch : ℚ) * ((6 / 5 : ℚ) + 1) /
          ((refTermFreq term ch : ℚ) + (6 / 5 : ℚ) *
            (1 - (3 / 4 : ℚ) + (3 / 4 : ℚ) *
              ((ch.content.length : ℚ) / avg)))
      else 0) := by
    intro term
    rw [termFreq_eq]
    unfold bm25Term bm25K1 bm25B
    rfl
  simp only [base_fold_fst, title_fold, zero_add]
  have hmaps :
      (terms.map (fun term =>
        if 0 < (termFreqAndType term ch).1 then
          bm25Term (idf term) avg (ch.content.length : ℚ)
            (termFreqAndType term ch).1
        else 0)) =
      (terms.map (fun term =>
        if 0 < refTermFreq term ch then
          idf term * (refTermFreq term ch : ℚ) * ((6 / 5 : ℚ) + 1) /
            ((refTermFreq term ch : ℚ) + (6 / 5 : ℚ) *
              (1 - (3 / 4 : ℚ) + (3 / 4 : ℚ) *
                ((ch.content.length : ℚ) / avg)))
        else 0)) :=
    List.map_congr_left fun term _ => hterm term
  rw [hmaps]

theorem mem_insertDesc {a r : SearchResult} :
    ∀ {l : List SearchResult}, a ∈ insertDesc r l → a = r ∨ a ∈ l := by
  intro l
  induction l with
  | nil =>
    intro h
    simp only [insertDesc] at h
    exact Or.inl (by simpa using h)
  | cons x xs ih =>
    intro h
    simp only [insertDesc] at h
    by_cases hc : x.score < r.score
    · rw [if_pos hc] at h
      rcases List.mem_cons.mp h with h | h
      · exact Or.inl h
      · exact Or.inr h
    · rw [if_neg hc] at h
      rcases List.mem_cons.mp h with h | h
      · exact Or.inr (by simp [h])
      · rcases ih h with h | h
        · exact Or.inl h
        · exact Or.inr (List.mem_cons_of_mem x h)

theorem mem_sortByScoreDesc {a : SearchResult} :
    ∀ {l : List SearchResult}, a ∈ sortByScoreDesc l → a ∈ l := by
  intro l
  induction l with
  | nil => intro h; simpa [sortByScoreDesc] using h
  | cons x xs ih =>
    intro h
    simp only [sortByScoreDesc, List.foldr_cons] at h
    rcases mem_insertDesc h with h | h
    · simp [h]
    · exact List.mem_cons_of_mem x (ih h)

/-- Every returned result is the scored image of some candidate chunk. -/
theorem mem_rankCandidates {lg : ℚ → ℚ} {pidN : Option (List Char)}
    {all : List Chunk} {q : List Char} {lim : Nat} {r : SearchResult}
    (hr : r ∈ rankCandidates lg pidN all q lim) :
    ∃ ch, ch ∈ all ∧
      r = ⟨ch,
        (scoreAndDetails (idfOf lg all) (avgOf all) pidN (tokenize q) ch).1,
        (scoreAndDetails (idfOf lg all) (avgOf all) pidN (tokenize q) ch).2⟩ := by
  unfold rankCandidates at hr
  split at hr
  · simp at hr
  · split at hr
    · simp at hr
    · have h1 := List.mem_of_mem_take hr
      have h2 := mem_sortByScoreDesc h1
      have h3 := List.mem_filter.mp h2
      obtain ⟨ch, hch, heq⟩ := List.mem_map.mp h3.1
      exact ⟨ch, hch, heq.symm⟩

theorem base_fold_snd (idf : List Char → ℚ) (avg : ℚ) (ch : Chunk) :
    ∀ (terms : List (List Char)) (acc : ℚ × List (List Char × MatchType)),
      (terms.foldl
        (fun acc term =>
          let ft := termFreqAndType term ch
          if 0 < ft.1 then
            (acc.1 + bm25Term (idf term) avg (ch.content.length : ℚ) ft.1,
             acc.2 ++ [(term, ft.2.getD MatchType.exact)])
          else acc) acc).2 =
      acc.2 ++ (terms.filterMap fun term =>
        if 0 < (termFreqAndType term ch).1 then
          some (term, (termFreqAndType term ch).2.getD MatchType.exact)
        else none) := by
  intro terms
  induction terms with
  | nil => intro acc; simp
  | cons term rest ih =>
    intro acc
    simp only [List.foldl_cons, List.filterMap_cons]
    by_cases h : 0 < (termFreqAndType term ch).1
    · simp only [if_pos h]
      rw [ih]
      simp
    · simp only [if_neg h]
      rw [ih]

/-- The matchDetails of a scored chunk: one entry per term with positive
`termFreq`, tagged `exact` or `fuzzy` by the branch that produced the
frequency. -/
theorem scoreAndDetails_snd (idf : List Char → ℚ) (avg : ℚ)
    (pidN : Option (List Char)) (terms : List (List Char)) (ch : Chunk) :
    (scoreAndDetails idf avg pidN terms ch).2 =
      terms.filterMap fun term =>
        if 0 < (termFreqAndType term ch).1 then
          some (term, (termFreqAndType term ch).2.getD MatchType.exact)
        else none := by
  unfold scoreAndDetails
  rw [base_fold_snd]
  simp

theorem termFreqAndType_pos_type {term : List Char} {ch : Chunk}
    (h : 0 < (termFreqAndType term ch).1) :
    (termFreqAndType term ch).2.getD MatchType.exact = MatchType.exact ∨
    (termFreqAndType term ch).2.getD MatchType.exact = MatchType.fuzzy := by
  unfold termFreqAndType at *
  by_cases he : 0 < countOcc term (ch.content.map toLowerChar)
  · rw [if_pos he]
    simp
  · rw [if_neg he] at h ⊢
    simp only at h
    rw [if_pos h]
    simp

/-- C10: every matchDetails entry of every returned result is tagged
`exact` or `fuzzy` — never `semantic` — and corresponds to a query term
whose `termFreq` for that chunk is strictly positive. -/
theorem searchResults_matchDetails :
    ∀ (lg : ℚ → ℚ) (st : EngineState) (pid : Option (List Char))
      (q : List Char) (lim : Nat) (r : SearchResult),
      r ∈ (searchStep lg st pid q lim).1 →
      ∀ td ∈ r.matchDetails,
        (td.2 = MatchType.exact ∨ td.2 = MatchType.fuzzy) ∧
        0 < (termFreqAndType td.1 r.chunk).1 := by
  intro lg st pid q lim r hr td htd
  unfold searchStep at hr
  obtain ⟨ch, _, rfl⟩ := mem_rankCandidates hr
  simp only at htd
  rw [scoreAndDetails_snd] at htd
  obtain ⟨term, _, heq⟩ := List.mem_filterMap.mp htd
  by_cases h : 0 < (termFreqAndType term ch).1
  · rw [if_pos h] at heq
    obtain rfl := Option.some_injective _ heq
    exact ⟨termFreqAndType_pos_type h, h⟩
  · rw [if_neg h] at heq
    exact absurd heq (by simp)

/-- C1 (failing run): a query with a known `projectId` writes the combined
candidate list back into that collection's stored entry — `search` mutates
the index through the array obtained from `Map.get`. -/
theorem search_mutates_stored_collection :
    mapGet (searchStep lg0 ⟨[("aaa".toList, [chA]), ("bbb".toList, [chB])]⟩
        (some "aaa".toList) "hello".toList 5).2.index "aaa".toList =
      some [chA, chB] ∧
    mapGet (EngineState.mk [("aaa".toList, [chA]), ("bbb".toList, [chB])]).index
        "aaa".toList = some [chA] := by
  decide

/-- C9 (amended): the engine never raises — absent or unparsable snapshots
load as the empty index, a valid snapshot loads its entries; querying an
empty index, an empty candidate set, or a query with no surviving tokens
yields `[]`; and an unknown (or empty-string) `collectionId` is not an
error: the query degrades to a search across all collections with the
state untouched. -/
theorem search_degrades_spec :
    loadIndex none = ⟨[]⟩ ∧
    (∀ entries, loadIndex (some entries) = ⟨mapFromEntries entries⟩) ∧
    (∀ (lg : ℚ → ℚ) (pid : Option (List Char)) (q : List Char) (lim : Nat),
      (searchStep lg ⟨[]⟩ pid q lim).1 = []) ∧
    (∀ (lg : ℚ → ℚ) (pidN : Option (List Char)) (q : List Char) (lim : Nat),
      rankCandidates lg pidN [] q lim = []) ∧
    (∀ (lg : ℚ → ℚ) (st : EngineState) (pid : Option (List Char))
      (q : List Char) (lim : Nat), tokenize q = [] →
      (searchStep lg st pid q lim).1 = []) ∧
    (∀ (lg : ℚ → ℚ) (st : EngineState) (p q : List Char) (lim : Nat),
      p.isEmpty = true ∨ mapHas st.index p = false →
      searchStep lg st (some p) q lim =
        (rankCandidates lg (jsTruthyId (some p)) (allChunkVals st) q lim,
         st)) := by
  refine ⟨rfl, fun entries => rfl, ?_, ?_, ?_, ?_⟩
  · intro lg pid q lim
    cases pid with
    | none => rfl
    | some p =>
      by_cases hp : p.isEmpty = true <;>
        simp [searchStep, jsTruthyId, hp, allChunksAndState, mapHas, mapGet,
          rankCandidates]
  · intro lg pidN q lim
    simp [rankCandidates]
  · intro lg st pid q lim hq
    unfold searchStep rankCandidates
    simp [hq]
  · intro lg st p q lim h
    by_cases hp : p.isEmpty = true
    · simp [searchStep, jsTruthyId, hp, allChunksAndState, allChunkVals]
    · have hhas : mapHas st.index p = false := by
        rcases h with h | h
        · exact absurd h hp
        · exact h
      simp [searchStep, jsTruthyId, hp, allChunksAndState, hhas, allChunkVals]

theorem search_degrades_spec_witness :
    (searchStep lg0 ⟨[("aaa".toList, [chA])]⟩ none "of".toList 5).1 = [] ∧
    searchStep lg0 ⟨[("aaa".toList, [chA])]⟩ (some "zzz".toList)
        "hello".toList 5 =
      (rankCandidates lg0 (jsTruthyId (some "zzz".toList))
        (allChunkVals ⟨[("aaa".toList, [chA])]⟩) "hello".toList 5,
       (⟨[("aaa".toList, [chA])]⟩ : EngineState)) :=
  ⟨search_degrades_spec.2.2.2.2.1 lg0 ⟨[("aaa".toList, [chA])]⟩ none
    "of".toList 5 (by decide),
   search_degrades_spec.2.2.2.2.2 lg0 ⟨[("aaa".toList, [chA])]⟩
    "zzz".toList "hello".toList 5 (Or.inr (by decide))⟩

theorem avgOf_single (ch : Chunk) : avgOf [ch] = (ch.content.length : ℚ) := by
  unfold avgOf
  simp

theorem bm25_unit (d : ℚ) (hd : d ≠ 0) : bm25Term 1 d d 1 = 1 := by
  unfold bm25Term bm25K1 bm25B
  rw [div_self hd]
  norm_num

/-- Evaluation of a single-candidate ranking when the single query token
occurs exactly once in the chunk, the title does not match, and no
collection boost applies: the chunk scores exactly the IDF value 1. -/
theorem rank_single_eval (ch : Chunk) (pidN : Option (List Char))
    (q t : List Char) (htok : tokenize q = [t])
    (htf : termFreqAndType t ch = (1, some MatchType.exact))
    (hidf : idfOf lg0 [ch] t = 1)
    (htl : containsSub t (titleLower ch) = false)
    (hlen : (ch.content.length : ℚ) ≠ 0)
    (hpid : ∀ p, pidN = some p → ¬ ch.projectId = p) :
    rankCandidates lg0 pidN [ch] q 5 =
      [⟨ch, 1, [(t, MatchType.exact)]⟩] := by
  have hscore :
      scoreAndDetails (idfOf lg0 [ch]) (avgOf [ch]) pidN [t] ch =
        (1, [(t, MatchType.exact)]) := by
    unfold scoreAndDetails
    simp only [List.foldl_cons, List.foldl_nil, htf]
    norm_num
    rw [hidf, avgOf_single, bm25_unit _ hlen, htl]
    simp only [Bool.false_eq_true, if_false]
    cases pidN with
    | none => rfl
    | some p => simp [hpid p rfl]
  unfold rankCandidates
  rw [htok]
  simp only [List.isEmpty_cons, List.isEmpty_nil, Bool.false_eq_true,
    if_false, List.map_cons, List.map_nil, hscore]
  simp only [List.filter_cons, List.filter_nil]
  rw [if_pos (by norm_num)]
  simp [sortByScoreDesc, insertDesc]

theorem idf_single_eval (ch : Chunk) (t : List Char)
    (hdf : [ch].countP (fun c => containsSub t (c.content.map toLowerChar)) = 1) :
    idfOf lg0 [ch] t = 1 := by
  unfold idfOf lg0
  rw [hdf]
  norm_num

theorem searchStep_none_single (k : List Char) (ch : Chunk) (q : List Char)
    (lim : Nat) :
    searchStep lg0 ⟨[(k, [ch])]⟩ none q lim =
      (rankCandidates lg0 none [ch] q lim, ⟨[(k, [ch])]⟩) := rfl

theorem chA_len : (chA.content.length : ℚ) ≠ 0 := by
  have h : chA.content.length = 11 := by decide
  rw [h]
  norm_num

theorem rank_chA_eval (pidN : Option (List Char))
    (hpid : ∀ p, pidN = some p → ¬ chA.projectId = p) :
    rankCandidates lg0 pidN [chA] "hello".toList 5 =
      [⟨chA, 1, [("hello".toList, MatchType.exact)]⟩] :=
  rank_single_eval chA pidN "hello".toList "hello".toList (by decide)
    (by decide) (idf_single_eval chA "hello".toList (by decide)) (by decide)
    chA_len hpid

/-- C9 (counterexample): a query with an unknown `collectionId` does not
return an empty result sequence — it searches all collections and here
finds a match. -/
theorem search_unknown_collection_nonempty :
    (searchStep lg0 ⟨[("aaa".toList, [chA])]⟩ (some "zzz".toList)
      "hello".toList 5).1 ≠ [] := by
  have hst : searchStep lg0 ⟨[("aaa".toList, [chA])]⟩ (some "zzz".toList)
      "hello".toList 5 =
      (rankCandidates lg0 (some "zzz".toList) [chA] "hello".toList 5,
       ⟨[("aaa".toList, [chA])]⟩) := rfl
  rw [hst]
  rw [rank_chA_eval (some "zzz".toList)
    (fun p hp => by injection hp with h; subst h; decide)]
  simp

theorem searchResults_matchDetails_witness :
    ((("hello".toList, MatchType.exact) : List Char × MatchType).2 =
        MatchType.exact ∨
     (("hello".toList, MatchType.exact) : List Char × MatchType).2 =
        MatchType.fuzzy) ∧
    0 < (termFreqAndType "hello".toList
      (SearchResult.mk chA 1 [("hello".toList, MatchType.exact)]).chunk).1 :=
  searchResults_matchDetails lg0 ⟨[("aaa".toList, [chA])]⟩ none
    "hello".toList 5 (SearchResult.mk chA 1 [("hello".toList, MatchType.exact)])
    (by
      rw [(searchStep_none_single "aaa".toList chA "hello".toList 5 :
        searchStep lg0 ⟨[("aaa".toList, [chA])]⟩ none "hello".toList 5 = _)]
      rw [show (rankCandidates lg0 none [chA] "hello".toList 5,
          (⟨[("aaa".toList, [chA])]⟩ : EngineState)).1 =
          rankCandidates lg0 none [chA] "hello".toList 5 from rfl]
      rw [rank_chA_eval none (fun p hp => by cases hp)]
      exact List.mem_singleton_self _)
    ("hello".toList, MatchType.exact) (by decide)

theorem mapGet_mapSet_self (m : List (List Char × List Chunk))
    (k : List Char) (v : List Chunk) : mapGet (mapSet m k v) k = some v := by
  induction m with
  | nil => simp [mapSet, mapGet, List.find?]
  | cons e rest ih =>
    by_cases he : e.1 = k
    · simp [mapSet, he, mapGet, List.find?]
    · simp only [mapSet, if_neg he]
      simpa [mapGet, List.find?_cons, he] using ih

theorem mapGet_filter_ne (m : List (List Char × List Chunk)) (k : List Char) :
    mapGet (m.filter fun e => !(e.1 = k : Bool)) k = none := by
  induction m with
  | nil => simp [mapGet, List.find?]
  | cons e rest ih =>
    by_cases he : e.1 = k
    · simpa [List.filter_cons, he] using ih
    · simp only [List.filter_cons, he]
      simpa [mapGet, List.find?_cons, he] using ih

theorem mem_mapSet {m : List (List Char × List Chunk)} {k : List Char}
    {v : List Chunk} {e : List Char × List Chunk}
    (hnd : (m.map Prod.fst).Nodup) (h : e ∈ mapSet m k v) :
    e = (k, v) ∨ (e ∈ m ∧ e.1 ≠ k) := by
  induction m with
  | nil =>
    simp only [mapSet] at h
    exact Or.inl (by simpa using h)
  | cons e0 rest ih =>
    simp only [List.map_cons, List.nodup_cons] at hnd
    by_cases he : e0.1 = k
    · simp only [mapSet, if_pos he] at h
      rcases List.mem_cons.mp h with heq | hmem
      · exact Or.inl heq
      · right
        refine ⟨List.mem_cons_of_mem e0 hmem, fun hek => hnd.1 ?_⟩
        rw [he, ← hek]
        exact List.mem_map_of_mem Prod.fst hmem
    · simp only [mapSet, if_neg he] at h
      rcases List.mem_cons.mp h with heq | hmem
      · right
        constructor
        · rw [heq]
          exact List.mem_cons_self e0 rest
        · rw [heq]
          exact he
      · rcases ih hnd.2 hmem with h2 | h2
        · exact Or.inl h2
        · exact Or.inr ⟨List.mem_cons_of_mem e0 h2.1, h2.2⟩

theorem mem_allChunks {st : EngineState} {pidN : Option (List Char)}
    {ch : Chunk} (h : ch ∈ (allChunksAndState st pidN).1) :
    ∃ e, e ∈ st.index ∧ ch ∈ e.2 := by
  have hflat : ch ∈ (st.index.flatMap fun e => e.2) →
      ∃ e, e ∈ st.index ∧ ch ∈ e.2 := by
    intro hf
    obtain ⟨e, he, hch⟩ := List.mem_flatMap.mp hf
    exact ⟨e, he, hch⟩
  cases pidN with
  | none =>
    simp only [allChunksAndState] at h
    exact hflat h
  | some p =>
    simp only [allChunksAndState] at h
    by_cases hhas : mapHas st.index p = true
    · rw [if_pos hhas] at h
      rcases List.mem_append.mp h with h | h
      · unfold mapHas at hhas
        cases hget : mapGet st.index p with
        | none => rw [hget] at hhas; simp at hhas
        | some own =>
          rw [hget] at h
          simp only [Option.getD_some] at h
          unfold mapGet at hget
          cases hfind : st.index.find? fun e => (e.1 = p : Bool) with
          | none => rw [hfind] at hget; simp at hget
          | some e0 =>
            rw [hfind] at hget
            simp only [Option.map] at hget
            obtain rfl : e0.2 = own := by
              cases hget
              rfl
            exact ⟨e0, List.mem_of_find?_eq_some hfind, h⟩
      · obtain ⟨e, he, hch⟩ := List.mem_flatMap.mp h
        exact ⟨e, List.mem_of_mem_filter he, hch⟩
    · rw [if_neg hhas] at h
      exact hflat h

/-- Every returned result's chunk is stored in the queried state's index. -/
theorem search_chunk_mem {lg : ℚ → ℚ} {st : EngineState}
    {pid : Option (List Char)} {q : List Char} {lim : Nat} {r : SearchResult}
    (hr : r ∈ (searchStep lg st pid q lim).1) :
    ∃ e, e ∈ st.index ∧ r.chunk ∈ e.2 := by
  unfold searchStep at hr
  obtain ⟨ch, hch, rfl⟩ := mem_rankCandidates hr
  exact mem_allChunks hch

/-- C8: `indexProject` maps the collection to exactly the new chunk set, and
old chunks that are in no other collection can never be returned afterwards;
`clearIndex` removes the collection, and its chunks (when in no other
collection) never appear in a subsequent search-all. -/
theorem index_replace_clear_spec :
    ∀ (st : EngineState) (c : List Char) (new : List Chunk),
      mapGet (indexProject st c new).index c = some new ∧
      mapGet (clearIndex st c).index c = none ∧
      (∀ (lg : ℚ → ℚ) (pid : Option (List Char)) (q : List Char) (lim : Nat)
        (r : SearchResult) (x : Chunk),
        (st.index.map Prod.fst).Nodup →
        r ∈ (searchStep lg (indexProject st c new) pid q lim).1 →
        x ∉ new → (∀ e ∈ st.index, e.1 ≠ c → x ∉ e.2) →
        r.chunk ≠ x) ∧
      (∀ (lg : ℚ → ℚ) (q : List Char) (lim : Nat) (r : SearchResult)
        (x : Chunk),
        r ∈ (searchStep lg (clearIndex st c) none q lim).1 →
        (∀ e ∈ st.index, e.1 ≠ c → x ∉ e.2) →
        r.chunk ≠ x) := by
  intro st c new
  refine ⟨mapGet_mapSet_self st.index c new, mapGet_filter_ne st.index c,
    ?_, ?_⟩
  · intro lg pid q lim r x hnd hr hxnew hxother heq
    obtain ⟨e, he, hche⟩ := search_chunk_mem hr
    rw [heq] at hche
    rcases mem_mapSet hnd he with heq2 | ⟨hmem, hne⟩
    · rw [heq2] at hche
      exact hxnew hche
    · exact hxother e hmem hne hche
  · intro lg q lim r x hr hxother heq
    obtain ⟨e, he, hche⟩ := search_chunk_mem hr
    rw [heq] at hche
    have he2 := List.mem_of_mem_filter he
    have hne : e.1 ≠ c := by
      have hb := List.of_mem_filter he
      simpa using hb
    exact hxother e he2 hne hche

theorem chB_len : (chB.content.length : ℚ) ≠ 0 := by
  have h : chB.content.length = 12 := by decide
  rw [h]
  norm_num

theorem chA2_len : (chA2.content.length : ℚ) ≠ 0 := by
  have h : chA2.content.length = 11 := by decide
  rw [h]
  norm_num

theorem index_replace_clear_spec_witness :
    mapGet (indexProject ⟨[("aaa".toList, [chA])]⟩ "aaa".toList
      [chA2]).index "aaa".toList = some [chA2] ∧
    mapGet (clearIndex ⟨[("aaa".toList, [chA]), ("bbb".toList, [chB])]⟩
      "aaa".toList).index "aaa".toList = none ∧
    (SearchResult.mk chA2 1 [("hello".toList, MatchType.exact)]).chunk ≠ chA ∧
    (SearchResult.mk chB 1 [("goodbye".toList, MatchType.exact)]).chunk ≠ chA :=
  ⟨(index_replace_clear_spec ⟨[("aaa".toList, [chA])]⟩ "aaa".toList [chA2]).1,
   (index_replace_clear_spec ⟨[("aaa".toList, [chA]), ("bbb".toList, [chB])]⟩
     "aaa".toList []).2.1,
   (index_replace_clear_spec ⟨[("aaa".toList, [chA])]⟩ "aaa".toList
     [chA2]).2.2.1 lg0 none "hello".toList 5
     (SearchResult.mk chA2 1 [("hello".toList, MatchType.exact)]) chA
     (by decide)
     (by
       rw [show searchStep lg0
           (indexProject ⟨[("aaa".toList, [chA])]⟩ "aaa".toList [chA2]) none
           "hello".toList 5 =
           (rankCandidates lg0 none [chA2] "hello".toList 5,
            ⟨[("aaa".toList, [chA2])]⟩) from rfl]
       rw [show (rankCandidates lg0 none [chA2] "hello".toList 5,
           (⟨[("aaa".toList, [chA2])]⟩ : EngineState)).1 =
           rankCandidates lg0 none [chA2] "hello".toList 5 from rfl]
       rw [rank_single_eval chA2 none "hello".toList "hello".toList
         (by decide) (by decide)
         (idf_single_eval chA2 "hello".toList (by decide)) (by decide)
         chA2_len (fun p hp => by cases hp)]
       exact List.mem_singleton_self _)
     (by decide) (by decide),
   (index_replace_clear_spec ⟨[("aaa".toList, [chA]), ("bbb".toList, [chB])]⟩
     "aaa".toList []).2.2.2 lg0 "goodbye".toList 5
     (SearchResult.mk chB 1 [("goodbye".toList, MatchType.exact)]) chA
     (by
       rw [show searchStep lg0
           (clearIndex ⟨[("aaa".toList, [chA]), ("bbb".toList, [chB])]⟩
             "aaa".toList) none "goodbye".toList 5 =
           (rankCandidates lg0 none [chB] "goodbye".toList 5,
            ⟨[("bbb".toList, [chB])]⟩) from rfl]
       rw [show (rankCandidates lg0 none [chB] "goodbye".toList 5,
           (⟨[("bbb".toList, [chB])]⟩ : EngineState)).1 =
           rankCandidates lg0 none [chB] "goodbye".toList 5 from rfl]
       rw [rank_single_eval chB none "goodbye".toList "goodbye".toList
         (by decide) (by decide)
         (idf_single_eval chB "goodbye".toList (by decide)) (by decide)
         chB_len (fun p hp => by cases hp)]
       exact List.mem_singleton_self _)
     (by decide)⟩

/-- C7: `levenshteinDistance` computes the Levenshtein edit distance — it is
the least `n` such that an `n`-step chain of unit-cost insertions, deletions
and substitutions transforms one string into the other; in particular
`levenshtein("color","colour") = 1` and `levenshtein("", s) = |s|`, and two
tokens fuzzy-match exactly when their distance is at most 2. -/
theorem levenshteinDistance_correct :
    (∀ a b : List Char,
      EditSeq (levenshteinDistance a b) a b ∧
      ∀ n : Nat, EditSeq n a b → levenshteinDistance a b ≤ n) ∧
    levenshteinDistance "color".toList "colour".toList = 1 ∧
    (∀ s : List Char, levenshteinDistance [] s = s.length) ∧
    (∀ term tok : List Char,
      fuzzyMatch term tok = true ↔ levenshteinDistance term tok ≤ 2) := by
  refine ⟨?_, by decide, ?_, ?_⟩
  · intro a b
    constructor
    · rw [lev_eq_ed_revs]
      have h2 := editSeq_reverse (editSeq_ed b.reverse a.reverse)
      simp only [List.reverse_reverse] at h2
      exact editSeq_symm h2
    · intro n hn
      rw [lev_eq_ed_revs]
      exact ed_le_editSeq (editSeq_reverse (editSeq_symm hn))
  · intro s
    simp [levenshteinDistance]
  · intro term tok
    unfold fuzzyMatch
    simp

theorem levenshteinDistance_correct_witness :
    levenshteinDistance "color".toList "colour".toList ≤ 1 := by
  have hstep : EditStep "color".toList "colour".toList := by
    have e1 : "color".toList = ['c', 'o', 'l', 'o'] ++ ['r'] := rfl
    have e2 : "colour".toList = ['c', 'o', 'l', 'o'] ++ 'u' :: ['r'] := rfl
    rw [e1, e2]
    exact EditStep.ins ['c', 'o', 'l', 'o'] ['r'] 'u'
  exact (levenshteinDistance_correct.1 "color".toList "colour".toList).2 1
    (EditSeq.step hstep (EditSeq.refl "colour".toList))
